import Mathlib

/-!
Shallow embedding of `src/JavaScriptSDK/AppInsightsCore.ts` (the pipeline
assembly and dispatch engine of the telemetry core).

Conventions of the embedding:

* A plugin object (`IPlugin` / `ITelemetryPlugin`) is a `Plugin` record.
  `pid` models JavaScript object identity (distinct objects have distinct
  pids).  `hasInit` models `typeof ext.initialize` being present (the
  `CoreUtils.isNullOrUndefined(extension.initialize)` test of line 55),
  `hasProc` models `typeof ext.processTelemetry === 'function'`, and
  `priority` is the numeric `priority` field, with `0` standing for the
  JavaScript-falsy value (absent or literal 0), exactly as the truthiness
  test `if (t && t.priority)` of line 99 sees it.
* Mutation of `setNextPlugin` pointers is modelled as an ordered event list
  `List (Nat × Nat)` of (source pid, target pid) assignments; the final
  successor function is recovered by `applyLinks` (last write wins).
* `Array.prototype.sort` with a consistent comparator is stable (ES2019);
  the unique stable order is computed by the insertion sort `jsSort c`,
  where element `a` precedes `b` when `c a b ≤ 0`.  A comparator returning
  `undefined` (the both-non-processing case of lines 74-91) is treated as
  `0` by the ECMAScript SortCompare rule, hence the `0` branch of
  `jsCompare`.
* Exceptions are modelled with `Except` / error fields.  Invoking a missing
  `initialize` member (possible for a configuration-declared extension,
  which is only null-checked at lines 60-72) raises the JavaScript
  `TypeError`, modelled as `CoreError.typeErrorNotAFunction`.
-/

/-- Plugin record: the observable surface of an `IPlugin` /
`ITelemetryPlugin` object as `AppInsightsCore.ts` inspects it. -/
structure Plugin where
  pid : Nat
  hasInit : Bool
  hasProc : Bool
  priority : Int
deriving DecidableEq, Repr

/-- `ChannelControllerPriority = 200` (line 318). -/
def controllerPr : Int := 200

/-- The `ChannelController` instance created in the core's constructor
(lines 247-268): it has `initialize`, `processTelemetry` and priority 200. -/
def mkController (pid : Nat) : Plugin :=
  { pid := pid, hasInit := true, hasProc := true, priority := controllerPr }

/-- Errors thrown by `initialize` (lines 35, 39, 56, 70, 101, 130), plus the
JavaScript `TypeError` raised when a validated-but-capability-less
extension has its missing `initialize` member invoked (line 109). -/
inductive CoreError where
  | alreadyInitialized
  | missingInstrumentationKey
  | invalidExtension
  | duplicatePriority
  | noChannelsAvailable
  | typeErrorNotAFunction
deriving DecidableEq, Repr

/-- The slice of `IConfiguration` that `AppInsightsCore.ts` reads:
`instrumentationKey`, `extensions` (entries may be null, line 64) and
`channels` (the list itself and each queue may be null, lines 272-274). -/
structure Config where
  instrumentationKey : Option String
  extensions : List (Option Plugin)
  channels : Option (List (Option (List Plugin)))
deriving DecidableEq, Repr

/-- Modelled from the spec: `CoreUtils.isNullOrUndefined` is not under
`src/`, so the instrumentation-key test of line 38 is taken from the spec's
words: "Reject if configuration is absent or instrumentation key is
missing/empty (fails with `MissingInstrumentationKey`)" — an absent or
empty-string key counts as missing. -/
def keyMissing : Option String → Bool
  | none => true
  | some s => s == ""

/-- The comparator of lines 74-91.  Both processing: `priority` difference;
processing after non-processing: `1` / `-1`; both non-processing: the
comparator returns `undefined`, which ECMAScript SortCompare maps to `0`. -/
def jsCompare (a b : Plugin) : Int :=
  if a.hasProc && b.hasProc then a.priority - b.priority
  else if a.hasProc && !b.hasProc then 1
  else if !a.hasProc && b.hasProc then -1
  else 0

/-- The per-queue comparator of lines 275-277 and 300-302:
`a.priority - b.priority`. -/
def qCompare (a b : Plugin) : Int := a.priority - b.priority

/-- Insert `a` into `l` before the first element `b` with `c a b ≤ 0`
(i.e. before the first element the comparator does not place `a` after). -/
def sortInsert (c : Plugin → Plugin → Int) (a : Plugin) : List Plugin → List Plugin
  | [] => [a]
  | b :: l => if c a b ≤ 0 then a :: b :: l else b :: sortInsert c a l

/-- Stable sort by comparator `c`: the unique stable order of
`Array.prototype.sort` (ES2019) for a consistent comparator. -/
def jsSort (c : Plugin → Plugin → Int) : List Plugin → List Plugin
  | [] => []
  | a :: l => sortInsert c a (jsSort c l)

/-- The sort of the merged working list (line 74). -/
def sortExtensions (l : List Plugin) : List Plugin := jsSort jsCompare l

/-- The duplicate-priority scan of lines 95-106: walk the list keeping the
set of already-seen priorities, skipping JavaScript-falsy (`0`) values,
and report `true` when a truthy priority repeats. -/
def dupScan : List Plugin → List Int → Bool
  | [], _ => false
  | p :: rest, seen =>
    if p.priority = 0 then dupScan rest seen
    else if p.priority ∈ seen then true
    else dupScan rest (p.priority :: seen)

/-- Invoke `ext.initialize(...)` on each list member in order (the
`forEach` of line 109 and the queue-member loops of lines 280 and 305):
returns the pids whose `initialize` ran, and the `TypeError` raised if a
member lacks the capability (the run stops there). -/
def initRun : List Plugin → List Nat × Option CoreError
  | [] => ([], none)
  | p :: rest =>
    if p.hasInit then
      ((initRun rest).fst.cons p.pid, (initRun rest).snd)
    else ([], some CoreError.typeErrorNotAFunction)

/-- The `setNextPlugin` assignments of a fully linked queue: the loop
`for (let i = 1; i < queue.length; i++) queue[i-1].setNextPlugin(queue[i])`
of lines 282-284. -/
def adjacentLinks : List Plugin → List (Nat × Nat)
  | a :: b :: rest => (a.pid, b.pid) :: adjacentLinks (b :: rest)
  | _ => []

/-- Result of `ChannelController.initialize`: error (if a member's missing
`initialize` threw), the retained `channelQueue`, the member pids
initialized, and the `setNextPlugin` events, all in program order. -/
structure ChannelOutcome where
  err : Option CoreError
  queues : List (List Plugin)
  trace : List Nat
  links : List (Nat × Nat)
deriving DecidableEq, Repr

/-- The explicit branch of `ChannelController.initialize` (lines 272-288):
for each non-null non-empty declared queue, sort by priority, initialize
each member in that order, link adjacent members, retain the queue. -/
def chanExplicit : List (Option (List Plugin)) → ChannelOutcome
  | [] => ⟨none, [], [], []⟩
  | none :: rest => chanExplicit rest
  | some q :: rest =>
    if q.isEmpty then chanExplicit rest
    else
      match initRun (jsSort qCompare q) with
      | (tr, some err) => ⟨some err, [], tr, []⟩
      | (tr, none) =>
        let o := chanExplicit rest
        ⟨o.err, jsSort qCompare q :: o.queues, tr ++ o.trace,
          adjacentLinks (jsSort qCompare q) ++ o.links⟩

/-- The implicit branch of `ChannelController.initialize` (lines 289-313):
collect extensions with priority above the controller's, sort, initialize,
and link with the source's loop bound `i < arr.length - 1` — which links
only adjacent pairs of `arr.dropLast`, one pair short of the full chain. -/
def chanImplicit (allExts : List Plugin) : ChannelOutcome :=
  if (allExts.filter (fun e => controllerPr < e.priority)).isEmpty then ⟨none, [], [], []⟩
  else
    match initRun (jsSort qCompare (allExts.filter (fun e => controllerPr < e.priority))) with
    | (tr, some err) => ⟨some err, [], tr, []⟩
    | (tr, none) =>
      ⟨none, [jsSort qCompare (allExts.filter (fun e => controllerPr < e.priority))], tr,
        adjacentLinks (jsSort qCompare (allExts.filter (fun e => controllerPr < e.priority))).dropLast⟩

/-- `ChannelController.initialize` (lines 270-314): `if (config.channels)`
— any array, even empty, is truthy — selects the explicit branch. -/
def chanInit (cfg : Config) (allExts : List Plugin) : ChannelOutcome :=
  match cfg.channels with
  | some chs => chanExplicit chs
  | none => chanImplicit allExts

/-- The chain-linking loop of lines 112-126: for each element but the last,
skip non-processing extensions, stop at priority 200 (the controller's
reserved value), otherwise record `curr.setNextPlugin(next)`. -/
def linkWalk : List Plugin → List (Nat × Nat)
  | a :: b :: rest =>
    if !a.hasProc then linkWalk (b :: rest)
    else if a.priority = controllerPr then []
    else (a.pid, b.pid) :: linkWalk (b :: rest)
  | _ => []

/-- Resolve the ordered `setNextPlugin` assignment events into the final
successor pointer of a pid: the last assignment wins, `none` when a pid was
never assigned. -/
def applyLinks : List (Nat × Nat) → Nat → Option Nat
  | [], _ => none
  | ab :: rest, x =>
    match applyLinks rest x with
    | some y => some y
    | none => if ab.fst = x then some ab.snd else none

/-- Core state after a successful `initialize`: the ordered `_extensions`
list, the controller's retained `channelQueue`, and the configuration's
instrumentation key (read again by `track`, line 158). -/
structure CoreState where
  extensions : List Plugin
  queues : List (List Plugin)
  cfgKey : Option String
deriving DecidableEq, Repr

/-- Everything observable about one `initialize` call: the thrown error or
resulting state, the extension-`initialize` invocations (pids, in order),
and the `setNextPlugin` events (in order). -/
structure InitOutcome where
  result : Except CoreError CoreState
  trace : List Nat
  links : List (Nat × Nat)
deriving Repr

/-- `AppInsightsCore.initialize` (lines 31-133).  `inited` is the entry
value of `_isInitialized`; `ctrlPid` identifies the `_channelController`
object made in the constructor.  Step order follows the source: the
already-initialized and instrumentation-key guards, the capability check of
the supplied list, the null check of the configuration-declared list, the
stable sort of the merged list, the `push` of the controller, the
duplicate-priority scan, the `initialize` pass (the controller's builds the
channel queues), the chain-linking loop, and the final no-channels guard. -/
def coreInit (inited : Bool) (ctrlPid : Nat) (cfg? : Option Config)
    (supplied : List Plugin) : InitOutcome :=
  if inited then ⟨.error .alreadyInitialized, [], []⟩
  else
    match cfg? with
    | none => ⟨.error .missingInstrumentationKey, [], []⟩
    | some cfg =>
      if keyMissing cfg.instrumentationKey then ⟨.error .missingInstrumentationKey, [], []⟩
      else if supplied.any (fun e => !e.hasInit) then ⟨.error .invalidExtension, [], []⟩
      else if cfg.extensions.any (fun o => o.isNone) then ⟨.error .invalidExtension, [], []⟩
      else
        if dupScan (sortExtensions (supplied ++ cfg.extensions.filterMap id) ++ [mkController ctrlPid]) [] then
          ⟨.error .duplicatePriority, [], []⟩
        else
          match initRun (sortExtensions (supplied ++ cfg.extensions.filterMap id)) with
          | (tr, some err) => ⟨.error err, tr, []⟩
          | (tr, none) =>
            match chanInit cfg (sortExtensions (supplied ++ cfg.extensions.filterMap id) ++ [mkController ctrlPid]) with
            | ⟨some err, _, tr2, ls2⟩ => ⟨.error err, tr ++ ctrlPid :: tr2, ls2⟩
            | ⟨none, qs, tr2, ls2⟩ =>
              if qs.isEmpty then
                ⟨.error .noChannelsAvailable, tr ++ ctrlPid :: tr2,
                  ls2 ++ linkWalk (sortExtensions (supplied ++ cfg.extensions.filterMap id) ++ [mkController ctrlPid])⟩
              else
                ⟨.ok ⟨sortExtensions (supplied ++ cfg.extensions.filterMap id) ++ [mkController ctrlPid],
                    qs, cfg.instrumentationKey⟩,
                  tr ++ ctrlPid :: tr2,
                  ls2 ++ linkWalk (sortExtensions (supplied ++ cfg.extensions.filterMap id) ++ [mkController ctrlPid])⟩

/-- Whether an `initialize` result is a success. -/
def resultOk : Except CoreError CoreState → Bool
  | .ok _ => true
  | .error _ => false

/-- `_isInitialized` after a call: the flag is set only at line 132, after
every guard has passed, so an entry value of `true` persists and a failed
call leaves it `false`. -/
def isInitAfter (inited : Bool) (o : InitOutcome) : Bool :=
  inited || resultOk o.result

/-- Errors thrown by `track` (lines 143, 148) and by
`_validateTelmetryItem` (lines 228, 233, 238). -/
inductive TrackError where
  | invalidItem
  | missingBaseType
  | missingName
  | missingTimestamp
  | missingKey
deriving DecidableEq, Repr

/-- The slice of `ITelemetryItem` that `track` reads and writes.  A
timestamp is a `Date` object (always truthy when present), so `Option Nat`;
`baseData` only matters through its truthiness. -/
structure Item where
  name : Option String
  timestamp : Option Nat
  instrumentationKey : Option String
  baseType : Option String
  baseData : Bool
deriving DecidableEq, Repr

/-- JavaScript falsiness of an optional string field (`!x`): absent or the
empty string. -/
def strFalsy : Option String → Bool
  | none => true
  | some s => s == ""

/-- `"EventData"`, the hard-coded default base type of line 153. -/
def eventDataType : String := "EventData"

/-- The dispatch loop of lines 169-177: hand the item to the first
extension exposing `processTelemetry`, then `break`. -/
def deliverFirst : List Plugin → Item → List (Nat × Item)
  | [], _ => []
  | p :: rest, it => if p.hasProc then [(p.pid, it)] else deliverFirst rest it

/-- The three defaulting steps of `track` (lines 151-163): default the base
type to `"EventData"` when falsy, default a falsy instrumentation key from
the configuration, default an absent timestamp to the current time. -/
def normalizeItem (cfgKey : Option String) (now : Nat) (it : Item) : Item :=
  let it1 := if strFalsy it.baseType then { it with baseType := some eventDataType } else it
  let it2 := if strFalsy it1.instrumentationKey then { it1 with instrumentationKey := cfgKey } else it1
  if it2.timestamp.isNone then { it2 with timestamp := some now } else it2

/-- `AppInsightsCore.track` (lines 139-178): null guard, the
baseData-without-baseType guard, the three defaulting steps
(`normalizeItem`), the required field validation of
`_validateTelmetryItem`, and dispatch to the first processing-capable
extension.  `now` is the clock value `new Date()` would produce. -/
def track (st : CoreState) (now : Nat) (item? : Option Item) :
    Except TrackError (List (Nat × Item)) :=
  match item? with
  | none => .error .invalidItem
  | some it =>
    if it.baseData && strFalsy it.baseType then .error .missingBaseType
    else
      if (normalizeItem st.cfgKey now it).name.isNone then .error .missingName
      else if (normalizeItem st.cfgKey now it).timestamp.isNone then .error .missingTimestamp
      else if (normalizeItem st.cfgKey now it).instrumentationKey.isNone then .error .missingKey
      else .ok (deliverFirst st.extensions (normalizeItem st.cfgKey now it))

/-- `ChannelController.processTelemetry` (lines 251-258): `forEach` over
the retained queues, handing the same item to the head of each non-empty
queue.  `beh h` tells whether plugin `h` throws from its `processTelemetry`;
a throw propagates out of the bare `forEach`, aborting the remaining
queues.  Returns the (pid, item) hand-offs made, and whether an exception
escaped. -/
def fanOut (beh : Nat → Bool) : List (List Plugin) → Item → List (Nat × Item) × Bool
  | [], _ => ([], false)
  | [] :: rest, it => fanOut beh rest it
  | (h :: _) :: rest, it =>
    if beh h.pid then ([(h.pid, it)], true)
    else ((h.pid, it) :: (fanOut beh rest it).fst, (fanOut beh rest it).snd)

/-- Fuel-bounded walk of the successor pointers: does the chain starting at
`cur` reach `target`? -/
def chainReaches (nxt : Nat → Option Nat) : Nat → Nat → Nat → Bool
  | 0, _, _ => false
  | fuel + 1, cur, target =>
    if cur = target then true
    else
      match nxt cur with
      | none => false
      | some n => chainReaches nxt fuel n target

/-- Adjacent pairs of a list (used to state linking facts). -/
def adjPairs : List Plugin → List (Plugin × Plugin)
  | a :: b :: rest => (a, b) :: adjPairs (b :: rest)
  | _ => []

/-! Concrete values used by witnesses and counterexamples. -/

/-- A sample instrumentation key. -/
def keyAbc : String := "abc"

/-- The empty string. -/
def emptyKey : String := ""

/-- A sample event name. -/
def nameX : String := "X"

/-- A processing extension with priority 5. -/
def p1W : Plugin := ⟨1, true, true, 5⟩

/-- A plain (non-processing) extension. -/
def p2W : Plugin := ⟨2, true, false, 6⟩

/-- A transport channel with priority 10. -/
def chanW : Plugin := ⟨3, true, true, 10⟩

/-- A transport channel with priority 20. -/
def chanW2 : Plugin := ⟨7, true, true, 20⟩

/-- A second processing extension with priority 5 (duplicating `p1W`). -/
def dupP5 : Plugin := ⟨10, true, true, 5⟩

/-- A processing extension with priority 0 (JavaScript-falsy). -/
def z1 : Plugin := ⟨4, true, true, 0⟩

/-- Another processing extension with priority 0. -/
def z2 : Plugin := ⟨5, true, true, 0⟩

/-- A non-null extension that lacks the `initialize` capability. -/
def badExt : Plugin := ⟨6, false, false, 0⟩

/-- A channel-range extension with priority 201. -/
def e201 : Plugin := ⟨8, true, true, 201⟩

/-- A channel-range extension with priority 202. -/
def e202 : Plugin := ⟨9, true, true, 202⟩

/-- A valid configuration with one explicit single-member channel queue. -/
def cfgW : Config := ⟨some keyAbc, [], some [some [chanW]]⟩

/-- A valid configuration whose declared extension list holds `badExt`. -/
def cfgBad : Config := ⟨some keyAbc, [some badExt], some [some [chanW]]⟩

/-- A valid configuration whose declared extension list holds a null entry. -/
def cfgBadNull : Config := ⟨some keyAbc, [none], some [some [chanW]]⟩

/-- A valid configuration with no `channels` declaration. -/
def cfgNC : Config := ⟨some keyAbc, [], none⟩

/-- A configuration whose instrumentation key is the empty string. -/
def cfgEmptyKey : Config := ⟨some emptyKey, [], some [some [chanW]]⟩

/-- The core state produced by `coreInit false 0 (some cfgW) [p1W, p2W]`. -/
def stW : CoreState := ⟨[p2W, p1W, mkController 0], [[chanW]], some keyAbc⟩

/-- The `initialize` trace of that run. -/
def trW : List Nat := [2, 1, 0, 3]

/-- The `setNextPlugin` events of that run. -/
def lsW : List (Nat × Nat) := [(1, 0)]

/-- A telemetry item carrying only a name. -/
def itW : Item := ⟨some nameX, none, none, none, false⟩

/-- Behaviour in which the plugin with pid 3 throws from `processTelemetry`
and every other plugin returns normally. -/
def behT : Nat → Bool := fun pid => pid == 3

/-- Behaviour in which no plugin throws. -/
def behF : Nat → Bool := fun _ => false

/-! Helper lemmas about the stable sort. -/

theorem sortInsert_perm (c : Plugin → Plugin → Int) (a : Plugin) :
    ∀ l : List Plugin, (sortInsert c a l).Perm (a :: l) := by
  intro l
  induction l with
  | nil => simp [sortInsert]
  | cons b l ih =>
    by_cases h : c a b ≤ 0
    · simp [sortInsert, h]
    · simp only [sortInsert, h, if_false]
      exact ((ih.cons b).trans (List.Perm.swap a b l))

theorem jsSort_perm (c : Plugin → Plugin → Int) :
    ∀ l : List Plugin, (jsSort c l).Perm l := by
  intro l
  induction l with
  | nil => simp [jsSort]
  | cons a l ih => exact (sortInsert_perm c a (jsSort c l)).trans (ih.cons a)

theorem jsSort_length (c : Plugin → Plugin → Int) (l : List Plugin) :
    (jsSort c l).length = l.length :=
  (jsSort_perm c l).length_eq

theorem sortInsert_pairwise (c : Plugin → Plugin → Int)
    (htot : ∀ x y, ¬ c x y ≤ 0 → c y x ≤ 0)
    (htrans : ∀ x y z, c x y ≤ 0 → c y z ≤ 0 → c x z ≤ 0)
    (a : Plugin) :
    ∀ l : List Plugin, List.Pairwise (fun x y => c x y ≤ 0) l →
      List.Pairwise (fun x y => c x y ≤ 0) (sortInsert c a l) := by
  intro l
  induction l with
  | nil => intro _; simp [sortInsert]
  | cons b l ih =>
    intro h
    rcases List.pairwise_cons.mp h with ⟨hb, hl⟩
    by_cases hc : c a b ≤ 0
    · simp only [sortInsert, hc, if_true]
      refine List.pairwise_cons.mpr ⟨?_, h⟩
      intro y hy
      rcases List.mem_cons.mp hy with rfl | hy
      · exact hc
      · exact htrans a b y hc (hb y hy)
    · simp only [sortInsert, hc, if_false]
      refine List.pairwise_cons.mpr ⟨?_, ih hl⟩
      intro y hy
      rcases List.mem_cons.mp ((sortInsert_perm c a l).mem_iff.mp hy) with rfl | hy
      · exact htot _ b hc
      · exact hb y hy

theorem jsSort_pairwise (c : Plugin → Plugin → Int)
    (htot : ∀ x y, ¬ c x y ≤ 0 → c y x ≤ 0)
    (htrans : ∀ x y z, c x y ≤ 0 → c y z ≤ 0 → c x z ≤ 0) :
    ∀ l : List Plugin, List.Pairwise (fun x y => c x y ≤ 0) (jsSort c l) := by
  intro l
  induction l with
  | nil => simp [jsSort]
  | cons a l ih => exact sortInsert_pairwise c htot htrans a (jsSort c l) ih

theorem sortInsert_cons_of_le (c : Plugin → Plugin → Int) (a : Plugin)
    (h : ∀ b, c a b ≤ 0) : ∀ l : List Plugin, sortInsert c a l = a :: l := by
  intro l
  cases l with
  | nil => rfl
  | cons b l => simp [sortInsert, h b]

theorem sortInsert_filter_of_neg (c : Plugin → Plugin → Int) (p : Plugin → Bool)
    (a : Plugin) (hp : p a = false) :
    ∀ l : List Plugin, (sortInsert c a l).filter p = l.filter p := by
  intro l
  induction l with
  | nil => simp [sortInsert, hp]
  | cons b l ih =>
    by_cases hc : c a b ≤ 0
    · simp [sortInsert, hc, hp]
    · simp only [sortInsert, hc, if_false]
      cases hb : p b <;> simp [List.filter_cons, hb, ih]

theorem jsSort_filter (c : Plugin → Plugin → Int) (p : Plugin → Bool)
    (hP : ∀ x, p x = true → ∀ b, c x b ≤ 0) :
    ∀ l : List Plugin, (jsSort c l).filter p = l.filter p := by
  intro l
  induction l with
  | nil => simp [jsSort]
  | cons a l ih =>
    by_cases hpa : p a = true
    · rw [jsSort, sortInsert_cons_of_le c a (hP a hpa)]
      simp [List.filter_cons, hpa, ih]
    · rw [jsSort, sortInsert_filter_of_neg c p a (Bool.not_eq_true _ ▸ hpa), ih]
      simp [List.filter_cons, hpa]

/-! Helper lemmas about the duplicate-priority scan. -/

theorem dupScan_of_mem_seen (q : Int) (hq : q ≠ 0) :
    ∀ (l : List Plugin) (seen : List Int), q ∈ seen →
      (∃ p ∈ l, p.priority = q) → dupScan l seen = true := by
  intro l
  induction l with
  | nil => intro seen _ h; simp at h
  | cons p rest ih =>
    intro seen hseen hmem
    by_cases h0 : p.priority = 0
    · have : ∃ x ∈ rest, x.priority = q := by
        rcases hmem with ⟨x, hx, hxq⟩
        rcases List.mem_cons.mp hx with rfl | hx
        · exact absurd (hxq ▸ h0) hq
        · exact ⟨x, hx, hxq⟩
      simp only [dupScan, h0, if_true]
      exact ih seen hseen this
    · by_cases hin : p.priority ∈ seen
      · simp [dupScan, h0, hin]
      · have : ∃ x ∈ rest, x.priority = q := by
          rcases hmem with ⟨x, hx, hxq⟩
          rcases List.mem_cons.mp hx with rfl | hx
          · exact absurd (hxq ▸ hseen) hin
          · exact ⟨x, hx, hxq⟩
        simp only [dupScan, h0, hin, if_false]
        exact ih _ (List.mem_cons_of_mem _ hseen) this

theorem dupScan_of_two (q : Int) (hq : q ≠ 0) :
    ∀ (l : List Plugin) (seen : List Int),
      2 ≤ l.countP (fun p => p.priority == q) → dupScan l seen = true := by
  intro l
  induction l with
  | nil => intro seen h; simp [List.countP_nil] at h
  | cons p rest ih =>
    intro seen h2
    rw [List.countP_cons] at h2
    by_cases hpq : p.priority = q
    · have h0 : ¬ p.priority = 0 := fun h => hq (hpq ▸ h)
      by_cases hin : p.priority ∈ seen
      · simp [dupScan, h0, hin]
      · have h1 : 1 ≤ rest.countP (fun p => p.priority == q) := by
          simp only [hpq, beq_self_eq_true, if_true] at h2
          omega
        have hx : ∃ x ∈ rest, x.priority = q := by
          rcases List.countP_pos_iff.mp h1 with ⟨x, hx, hxq⟩
          exact ⟨x, hx, by simpa using hxq⟩
        simp only [dupScan, h0, hin, if_false]
        exact dupScan_of_mem_seen q hq rest _ (hpq ▸ List.mem_cons_self _ _) hx
    · have hb : (p.priority == q) = false := by simp [hpq]
      simp only [hb, Bool.false_eq_true, if_false, Nat.add_zero] at h2
      have h2' : 2 ≤ rest.countP (fun p => p.priority == q) := h2
      by_cases h0 : p.priority = 0
      · simp only [dupScan, h0, if_true]
        exact ih seen h2'
      · by_cases hin : p.priority ∈ seen
        · simp [dupScan, h0, hin]
        · simp only [dupScan, h0, hin, if_false]
          exact ih _ h2'

/-! Comparator facts. -/

theorem jsCompare_total : ∀ x y : Plugin, ¬ jsCompare x y ≤ 0 → jsCompare y x ≤ 0 := by
  rintro ⟨xid, xi, xproc, xpr⟩ ⟨yid, yi, yproc, ypr⟩ h
  cases xproc <;> cases yproc <;> simp_all [jsCompare] <;> omega

theorem jsCompare_trans : ∀ x y z : Plugin,
    jsCompare x y ≤ 0 → jsCompare y z ≤ 0 → jsCompare x z ≤ 0 := by
  rintro ⟨xid, xi, xproc, xpr⟩ ⟨yid, yi, yproc, ypr⟩ ⟨zid, zi, zproc, zpr⟩ h1 h2
  cases xproc <;> cases yproc <;> cases zproc <;> simp_all [jsCompare] <;> omega

/-- C5: the ordering produced by `initialize` on the merged working list of
supplied and configuration-declared extensions (`sortExtensions`, the sort
of line 74) puts any two processing extensions in ascending priority order,
puts every non-processing extension before every processing extension, and
keeps any two non-processing extensions in their input order (stability). -/
theorem C5_ordering (supplied cfgExts : List Plugin) :
    List.Pairwise (fun a b => a.hasProc = true → b.hasProc = true → a.priority ≤ b.priority)
      (sortExtensions (supplied ++ cfgExts))
    ∧ List.Pairwise (fun a b => a.hasProc = true → b.hasProc = true)
      (sortExtensions (supplied ++ cfgExts))
    ∧ (sortExtensions (supplied ++ cfgExts)).filter (fun p => !p.hasProc)
      = (supplied ++ cfgExts).filter (fun p => !p.hasProc) := by
  have hpw := jsSort_pairwise jsCompare jsCompare_total jsCompare_trans (supplied ++ cfgExts)
  refine ⟨hpw.imp ?_, hpw.imp ?_, ?_⟩
  · intro a b h ha hb
    unfold jsCompare at h
    rw [ha, hb] at h
    simp only [Bool.true_and, if_true] at h
    omega
  · intro a b h ha
    by_contra hb
    have hb' : b.hasProc = false := Bool.not_eq_true _ ▸ hb
    unfold jsCompare at h
    rw [ha, hb'] at h
    simp at h
  · refine jsSort_filter jsCompare _ ?_ (supplied ++ cfgExts)
    intro x hx b
    have hx' : x.hasProc = false := by simpa using hx
    unfold jsCompare
    rw [hx']
    cases hb : b.hasProc <;> simp

/-- C2 (amended): the channel-controller fan-out hands the same item to the
head of every non-empty retained queue, in queue order, provided no head
throws; the counterexample `C2_cex` shows that when one head throws, the
exception propagates out of the bare `forEach` and later queues never
receive the item. -/
theorem C2_fanOutBroadcast (beh : Nat → Bool) (qs : List (List Plugin)) (it : Item)
    (h : ∀ q ∈ qs, ∀ p ∈ q.head?.toList, beh p.pid = false) :
    fanOut beh qs it = (qs.filterMap (fun q => q.head?.map (fun p => (p.pid, it))), false) := by
  induction qs with
  | nil => rfl
  | cons q rest ih =>
    have hrest : ∀ q ∈ rest, ∀ p ∈ q.head?.toList, beh p.pid = false :=
      fun q hq => h q (List.mem_cons_of_mem _ hq)
    cases q with
    | nil => simp [fanOut, List.filterMap_cons, ih hrest]
    | cons a t =>
      have ha : beh a.pid = false := h _ (List.mem_cons_self _ _) a (by simp)
      simp [fanOut, ha, List.filterMap_cons, ih hrest]

/-- C2 counterexample: with two single-member queues where the first head
(pid 3) throws, the item is handed to the first head, the exception escapes,
and the second queue's head (pid 7) never receives the item — refuting the
claim that a thrown error from one queue's head does not prevent delivery
to the heads of the other queues. -/
theorem C2_cex :
    (fanOut behT [[chanW], [chanW2]] itW).snd = true
    ∧ (fanOut behT [[chanW], [chanW2]] itW).fst = [(3, itW)]
    ∧ chanW2.pid = 7
    ∧ (7, itW) ∉ (fanOut behT [[chanW], [chanW2]] itW).fst :=
  ⟨rfl, rfl, rfl, by decide⟩

/-- C2 witness: with no throwing head, both queue heads receive the item. -/
theorem C2_witness :
    fanOut behF [[chanW], [chanW2]] itW
      = ([[chanW], [chanW2]].filterMap (fun q => q.head?.map (fun p => (p.pid, itW))), false) :=
  C2_fanOutBroadcast behF [[chanW], [chanW2]] itW (by decide)

/-- C3: evaluation at the failing input.  With no `channels` declaration
and two extensions of priorities 201 and 202, `ChannelController.initialize`
retains the implicit queue `[e201, e202]` (sorted, both initialized, no
error), yet records no `setNextPlugin` call at all: the loop bound
`i < arr.length - 1` leaves the non-last member `e201` without a forwarding
successor, contradicting the claim that every member except the last is
linked to the next member of its queue. -/
theorem C3_implicitQueueLink :
    (chanInit cfgNC [e201, e202]).err = none
    ∧ (chanInit cfgNC [e201, e202]).queues = [[e201, e202]]
    ∧ (chanInit cfgNC [e201, e202]).trace = [e201.pid, e202.pid]
    ∧ (chanInit cfgNC [e201, e202]).links = []
    ∧ applyLinks (chanInit cfgNC [e201, e202]).links e201.pid = none :=
  ⟨rfl, rfl, rfl, rfl, rfl⟩

/-- C7: when the configuration is absent, or its instrumentation key is
absent or the empty string, `initialize` on a fresh core fails with
MissingInstrumentationKey (spec-modelled key test, `CoreUtils` being
outside `src/`). -/
theorem C7_missingKey (ctrlPid : Nat) (cfg? : Option Config) (supplied : List Plugin)
    (h : cfg? = none ∨ ∃ cfg, cfg? = some cfg ∧
      (cfg.instrumentationKey = none ∨ cfg.instrumentationKey = some emptyKey)) :
    (coreInit false ctrlPid cfg? supplied).result = .error .missingInstrumentationKey := by
  rcases h with rfl | ⟨cfg, rfl, hk⟩
  · rfl
  · have hkm : keyMissing cfg.instrumentationKey = true := by
      rcases hk with hk | hk <;> rw [hk] <;> rfl
    simp [coreInit, hkm]

/-- C7 witness: an empty-string instrumentation key is rejected. -/
theorem C7_witness :
    (coreInit false 0 (some cfgEmptyKey) []).result = .error .missingInstrumentationKey :=
  C7_missingKey 0 (some cfgEmptyKey) [] (Or.inr ⟨cfgEmptyKey, rfl, Or.inr rfl⟩)

/-- C9 (amended): every `initialize` call made after a prior successful
call on the same core fails with AlreadyInitialized, regardless of the
arguments of the repeated call.  (`_isInitialized` is set only at line 132,
so only a successful call arms the guard; `C9_cex` shows a failed first
call can be retried successfully.) -/
theorem C9_afterSuccess (ctrlPid : Nat) (cfg1 : Option Config) (e1 : List Plugin)
    (h : resultOk (coreInit false ctrlPid cfg1 e1).result = true) :
    ∀ (cfg2 : Option Config) (e2 : List Plugin),
      (coreInit (isInitAfter false (coreInit false ctrlPid cfg1 e1)) ctrlPid cfg2 e2).result
        = .error .alreadyInitialized := by
  intro cfg2 e2
  have hset : isInitAfter false (coreInit false ctrlPid cfg1 e1) = true := by
    simp [isInitAfter, h]
  rw [hset]
  rfl

/-- C9 witness: after a successful call, a repeat call with the very same
valid arguments fails with AlreadyInitialized. -/
theorem C9_witness :
    (coreInit (isInitAfter false (coreInit false 0 (some cfgW) [p1W, p2W])) 0
      (some cfgW) [p1W, p2W]).result = .error .alreadyInitialized :=
  C9_afterSuccess 0 (some cfgW) [p1W, p2W] rfl (some cfgW) [p1W, p2W]

/-- C9 counterexample: a first call that fails (absent configuration) does
not set `_isInitialized`, so the second call on the same instance succeeds
instead of failing with AlreadyInitialized — refuting the claim for every
second or later call. -/
theorem C9_cex :
    (coreInit false 0 none []).result = .error .missingInstrumentationKey
    ∧ (coreInit (isInitAfter false (coreInit false 0 none [])) 0 (some cfgW) [p1W, p2W]).result
        = .ok stW :=
  ⟨rfl, rfl⟩

/-- C8 (amended): an extension of the supplied list lacking the
`initialize` capability makes `initialize` fail with InvalidExtension, but
the configuration-declared list is only checked for null entries: a null
entry also raises InvalidExtension, while a non-null declared extension
lacking the capability passes validation (`C8_cex` shows it later raises a
TypeError instead). -/
theorem C8_capabilityChecks (ctrlPid : Nat) (cfg : Config) (supplied : List Plugin)
    (hkey : keyMissing cfg.instrumentationKey = false) :
    ((∃ e ∈ supplied, e.hasInit = false) →
      (coreInit false ctrlPid (some cfg) supplied).result = .error .invalidExtension)
    ∧ ((∀ e ∈ supplied, e.hasInit = true) → none ∈ cfg.extensions →
      (coreInit false ctrlPid (some cfg) supplied).result = .error .invalidExtension) := by
  constructor
  · intro h
    have hany : supplied.any (fun e => !e.hasInit) = true := by
      rcases h with ⟨e, he, hf⟩
      exact List.any_eq_true.mpr ⟨e, he, by simp [hf]⟩
    simp [coreInit, hkey, hany]
  · intro hall hnone
    have hany : supplied.any (fun e => !e.hasInit) = false := by
      simp only [List.any_eq_false]
      intro e he
      simp [hall e he]
    have hcf : cfg.extensions.any (fun o => o.isNone) = true :=
      List.any_eq_true.mpr ⟨none, hnone, rfl⟩
    simp [coreInit, hkey, hany, hcf]

/-- C8 counterexample: `badExt` is a non-null configuration-declared
extension without the `initialize` capability; validation lets it through
and `initialize` fails with the JavaScript TypeError raised when the
missing member is invoked, not with InvalidExtension — refuting the claim
that the same capability check is applied to both lists. -/
theorem C8_cex :
    badExt.hasInit = false
    ∧ some badExt ∈ cfgBad.extensions
    ∧ (coreInit false 0 (some cfgBad) []).result = .error .typeErrorNotAFunction
    ∧ CoreError.typeErrorNotAFunction ≠ CoreError.invalidExtension :=
  ⟨rfl, by decide, rfl, by decide⟩

/-- C8 witness: a null configuration-declared entry is rejected with
InvalidExtension. -/
theorem C8_witness :
    (coreInit false 0 (some cfgBadNull) []).result = .error .invalidExtension :=
  (C8_capabilityChecks 0 cfgBadNull [] (by decide)).2 (by intro e he; cases he) (by decide)

/-! Rewriting equations for the channel-controller branches. -/

theorem chanExplicit_none_cons (rest : List (Option (List Plugin))) :
    chanExplicit (none :: rest) = chanExplicit rest := rfl

theorem chanExplicit_empty_cons (q : List Plugin) (rest : List (Option (List Plugin)))
    (h : q.isEmpty = true) : chanExplicit (some q :: rest) = chanExplicit rest := by
  simp [chanExplicit, h]

theorem chanExplicit_err_cons (q : List Plugin) (rest : List (Option (List Plugin)))
    (tr : List Nat) (err : CoreError) (h : q.isEmpty = false)
    (hIR : initRun (jsSort qCompare q) = (tr, some err)) :
    chanExplicit (some q :: rest) = ⟨some err, [], tr, []⟩ := by
  rw [chanExplicit, if_neg (by simp [h]), hIR]

theorem chanExplicit_ok_cons (q : List Plugin) (rest : List (Option (List Plugin)))
    (tr : List Nat) (h : q.isEmpty = false)
    (hIR : initRun (jsSort qCompare q) = (tr, none)) :
    chanExplicit (some q :: rest) =
      ⟨(chanExplicit rest).err, jsSort qCompare q :: (chanExplicit rest).queues,
        tr ++ (chanExplicit rest).trace,
        adjacentLinks (jsSort qCompare q) ++ (chanExplicit rest).links⟩ := by
  rw [chanExplicit, if_neg (by simp [h]), hIR]

theorem chanExplicit_queues_pos :
    ∀ chs : List (Option (List Plugin)), ∀ q ∈ (chanExplicit chs).queues, 0 < q.length := by
  intro chs
  induction chs with
  | nil => intro q hq; simp [chanExplicit] at hq
  | cons oq rest ih =>
    intro q hq
    match oq with
    | none =>
      rw [chanExplicit_none_cons] at hq
      exact ih q hq
    | some q0 =>
      by_cases h0 : q0.isEmpty
      · rw [chanExplicit_empty_cons q0 rest h0] at hq
        exact ih q hq
      · have h0' : q0.isEmpty = false := Bool.not_eq_true _ ▸ h0
        rcases hIR : initRun (jsSort qCompare q0) with ⟨tr, e⟩
        cases e with
        | some err =>
          rw [chanExplicit_err_cons q0 rest tr err h0' hIR] at hq
          simp at hq
        | none =>
          rw [chanExplicit_ok_cons q0 rest tr h0' hIR] at hq
          rcases List.mem_cons.mp hq with rfl | hq
          · rw [jsSort_length]
            cases q0 with
            | nil => simp at h0'
            | cons a t => simp
          · exact ih q hq

theorem chanImplicit_queues_pos (allExts : List Plugin) :
    ∀ q ∈ (chanImplicit allExts).queues, 0 < q.length := by
  intro q hq
  by_cases he : (allExts.filter (fun e => controllerPr < e.priority)).isEmpty
  · rw [chanImplicit, if_pos he] at hq
    simp at hq
  · have he' : (allExts.filter (fun e => controllerPr < e.priority)).isEmpty = false :=
      Bool.not_eq_true _ ▸ he
    rcases hIR : initRun (jsSort qCompare (allExts.filter (fun e => controllerPr < e.priority)))
      with ⟨tr, e⟩
    cases e with
    | some err =>
      rw [chanImplicit, if_neg (by simp [he']), hIR] at hq
      simp at hq
    | none =>
      rw [chanImplicit, if_neg (by simp [he']), hIR] at hq
      rcases List.mem_cons.mp hq with rfl | hq
      · rw [jsSort_length]
        rcases hf : allExts.filter (fun e => controllerPr < e.priority) with _ | ⟨a, t⟩
        · rw [hf] at he'; simp at he'
        · simp [hf]
      · simp at hq

/-- C10: after every completed `ChannelController.initialize`, every
retained queue is non-empty — a null or empty declared queue is skipped and
the implicit queue is retained only when some extension has priority above
the controller's — so `processTelemetry`'s access to each retained queue's
first member is always in bounds. -/
theorem C10_queuesNonempty (cfg : Config) (allExts : List Plugin) :
    ∀ q ∈ (chanInit cfg allExts).queues, 0 < q.length := by
  intro q hq
  rw [chanInit] at hq
  rcases hch : cfg.channels with _ | chs
  · rw [hch] at hq
    exact chanImplicit_queues_pos allExts q hq
  · rw [hch] at hq
    exact chanExplicit_queues_pos chs q hq

/-- C10 witness: the single queue retained from `cfgW` is non-empty. -/
theorem C10_witness : 0 < ([chanW] : List Plugin).length :=
  C10_queuesNonempty cfgW [] [chanW] (by decide)

/-- C1 (amended): for every otherwise-valid `initialize` call whose final
ordered list (merged working list plus the appended channel controller)
contains two processing extensions with equal *non-zero* priority —
including the controller's reserved 200 — the call fails with
DuplicatePriority and performs no extension initialization call: the scan
of lines 95-106 runs before the `initialize` pass of line 109.  The
counterexample `C1_cex` shows the scan silently skips the JavaScript-falsy
priority value 0, so the claim fails for two processing extensions of
equal priority 0. -/
theorem C1_dupPriority (ctrlPid : Nat) (cfg : Config) (supplied : List Plugin)
    (hkey : keyMissing cfg.instrumentationKey = false)
    (hsup : ∀ e ∈ supplied, e.hasInit = true)
    (hcfg : ∀ o ∈ cfg.extensions, o.isNone = false)
    (hdup : ∃ q : Int, q ≠ 0 ∧ 2 ≤
      ((supplied ++ cfg.extensions.filterMap id) ++ [mkController ctrlPid]).countP
        (fun p => p.hasProc && (p.priority == q))) :
    (coreInit false ctrlPid (some cfg) supplied).result = .error .duplicatePriority
    ∧ (coreInit false ctrlPid (some cfg) supplied).trace = [] := by
  rcases hdup with ⟨q, hq, h2⟩
  have hmono : 2 ≤ ((supplied ++ cfg.extensions.filterMap id) ++ [mkController ctrlPid]).countP
      (fun p => p.priority == q) := by
    refine le_trans h2 (List.countP_mono_left ?_)
    intro p _ hp
    simp only [Bool.and_eq_true] at hp
    exact hp.2
  have hperm :
      (sortExtensions (supplied ++ cfg.extensions.filterMap id) ++ [mkController ctrlPid]).Perm
        ((supplied ++ cfg.extensions.filterMap id) ++ [mkController ctrlPid]) :=
    (jsSort_perm jsCompare _).append_right _
  have hcount : 2 ≤ (sortExtensions (supplied ++ cfg.extensions.filterMap id)
      ++ [mkController ctrlPid]).countP (fun p => p.priority == q) := by
    rw [hperm.countP_eq]
    exact hmono
  have hds : dupScan (sortExtensions (supplied ++ cfg.extensions.filterMap id)
      ++ [mkController ctrlPid]) [] = true :=
    dupScan_of_two q hq _ [] hcount
  have hany : supplied.any (fun e => !e.hasInit) = false := by
    simp only [List.any_eq_false]
    intro e he
    simp [hsup e he]
  have hcf : cfg.extensions.any (fun o => o.isNone) = false := by
    simp only [List.any_eq_false]
    intro o ho
    simp [hcfg o ho]
  constructor <;> simp [coreInit, hkey, hany, hcf, hds]

/-- C1 witness: two supplied processing extensions sharing priority 5 make
`initialize` fail with DuplicatePriority, with an empty trace. -/
theorem C1_witness :
    (coreInit false 0 (some cfgW) [p1W, dupP5]).result = .error .duplicatePriority
    ∧ (coreInit false 0 (some cfgW) [p1W, dupP5]).trace = [] :=
  C1_dupPriority 0 cfgW [p1W, dupP5] (by decide) (by decide) (by decide)
    ⟨5, by decide, by decide⟩

/-- C1 counterexample: two processing extensions with equal priority 0 —
the scan's truthiness guard skips them, `initialize` succeeds, and
extension initialization calls are performed — refuting the claim for
every equal-priority pair. -/
theorem C1_cex :
    z1.hasProc = true ∧ z2.hasProc = true ∧ z1.priority = z2.priority
    ∧ resultOk (coreInit false 0 (some cfgW) [z1, z2]).result = true
    ∧ (coreInit false 0 (some cfgW) [z1, z2]).trace = [z1.pid, z2.pid, 0, chanW.pid] :=
  ⟨rfl, rfl, rfl, rfl, rfl⟩

/-! Inversion of a successful `initialize`, and the dispatch lemma. -/

theorem coreInit_ok_inv (ctrlPid : Nat) (cfg : Config) (supplied : List Plugin)
    (st : CoreState) (tr : List Nat) (ls : List (Nat × Nat))
    (h : coreInit false ctrlPid (some cfg) supplied = ⟨.ok st, tr, ls⟩) :
    st.extensions
        = sortExtensions (supplied ++ cfg.extensions.filterMap id) ++ [mkController ctrlPid]
    ∧ st.cfgKey = cfg.instrumentationKey
    ∧ keyMissing cfg.instrumentationKey = false
    ∧ dupScan (sortExtensions (supplied ++ cfg.extensions.filterMap id)
        ++ [mkController ctrlPid]) [] = false
    ∧ ls = (chanInit cfg (sortExtensions (supplied ++ cfg.extensions.filterMap id)
          ++ [mkController ctrlPid])).links
        ++ linkWalk (sortExtensions (supplied ++ cfg.extensions.filterMap id)
          ++ [mkController ctrlPid]) := by
  rw [coreInit] at h
  simp only [Bool.false_eq_true, if_false] at h
  split at h
  · exact absurd h (by simp)
  · split at h
    · exact absurd h (by simp)
    · split at h
      · exact absurd h (by simp)
      · rename_i hkm hsup hcfg
        split at h
        · exact absurd h (by simp)
        · rename_i hdup
          split at h
          · exact absurd h (by simp)
          · rename_i tr0 hIR
            split at h
            · exact absurd h (by simp)
            · rename_i qs tr2 ls2 hch
              split at h
              · exact absurd h (by simp)
              · rename_i hqs
                simp only [InitOutcome.mk.injEq, Except.ok.injEq] at h
                obtain ⟨hst, htr, hls⟩ := h
                refine ⟨?_, ?_, ?_, ?_, ?_⟩
                · rw [← hst]
                · rw [← hst]
                · exact Bool.of_not_eq_true hkm
                · exact Bool.of_not_eq_true hdup
                · rw [hch]
                  exact hls.symm

theorem normalizeItem_spec (ck : Option String) (now : Nat) (it : Item) :
    (normalizeItem ck now it).name = it.name
    ∧ (normalizeItem ck now it).baseType
        = (if strFalsy it.baseType then some eventDataType else it.baseType)
    ∧ (normalizeItem ck now it).instrumentationKey
        = (if strFalsy it.instrumentationKey then ck else it.instrumentationKey)
    ∧ (normalizeItem ck now it).timestamp
        = (if it.timestamp.isNone then some now else it.timestamp)
    ∧ (normalizeItem ck now it).baseData = it.baseData := by
  unfold normalizeItem
  by_cases h1 : strFalsy it.baseType <;> by_cases h2 : strFalsy it.instrumentationKey <;>
    by_cases h3 : it.timestamp.isNone <;> simp [h1, h2, h3]

theorem deliverFirst_of_exists (l : List Plugin) (it : Item)
    (h : ∃ x ∈ l, x.hasProc = true) :
    ∃ p, l.find? (fun x => x.hasProc) = some p ∧ p.hasProc = true
      ∧ deliverFirst l it = [(p.pid, it)] := by
  induction l with
  | nil => simp at h
  | cons a rest ih =>
    by_cases ha : a.hasProc = true
    · exact ⟨a, by simp [List.find?_cons, ha], ha, by simp [deliverFirst, ha]⟩
    · have ha' : a.hasProc = false := Bool.not_eq_true _ ▸ ha
      have h' : ∃ x ∈ rest, x.hasProc = true := by
        rcases h with ⟨x, hx, hxp⟩
        rcases List.mem_cons.mp hx with rfl | hx
        · exact absurd hxp ha
        · exact ⟨x, hx, hxp⟩
      rcases ih h' with ⟨p, hf, hp, hd⟩
      exact ⟨p, by simp [List.find?_cons, ha', hf], hp, by simp [deliverFirst, ha', hd]⟩

/-- C6: on any successfully initialized core, `track` of a non-null item
with a present name and no base data lacking a base type delivers the
defaulted item to exactly one extension — the first member of the
assembled list exposing a processing capability (which always exists) —
with the base type defaulted to `"EventData"` when falsy, the
instrumentation key defaulted from the configuration when falsy, and a
non-null timestamp defaulted to `now` when absent. -/
theorem C6_trackDelivery (ctrlPid : Nat) (cfg : Config) (supplied : List Plugin)
    (st : CoreState) (tr : List Nat) (ls : List (Nat × Nat)) (now : Nat) (it : Item)
    (hok : coreInit false ctrlPid (some cfg) supplied = ⟨.ok st, tr, ls⟩)
    (hname : it.name.isSome = true)
    (hbase : it.baseData = true → strFalsy it.baseType = false) :
    ∃ p it2, st.extensions.find? (fun x => x.hasProc = true) = some p
      ∧ track st now (some it) = .ok [(p.pid, it2)]
      ∧ (strFalsy it.baseType = true → it2.baseType = some eventDataType)
      ∧ (strFalsy it.baseType = false → it2.baseType = it.baseType)
      ∧ (strFalsy it.instrumentationKey = true → it2.instrumentationKey = cfg.instrumentationKey)
      ∧ it2.instrumentationKey.isSome = true
      ∧ it2.timestamp.isSome = true
      ∧ (it.timestamp = none → it2.timestamp = some now)
      ∧ it2.name = it.name := by
  obtain ⟨hexts, hkeyst, hkm, -, -⟩ := coreInit_ok_inv ctrlPid cfg supplied st tr ls hok
  obtain ⟨hn, hbt, hik, hts, -⟩ := normalizeItem_spec st.cfgKey now it
  have hbd : (it.baseData && strFalsy it.baseType) = false := by
    cases hb : it.baseData
    · rfl
    · simp [hbase hb]
  have hck : st.cfgKey.isSome = true := by
    rw [hkeyst]
    cases hc : cfg.instrumentationKey
    · rw [hc] at hkm
      simp [keyMissing] at hkm
    · simp
  have hik3 : (normalizeItem st.cfgKey now it).instrumentationKey.isSome = true := by
    rw [hik]
    by_cases h2 : strFalsy it.instrumentationKey
    · rw [if_pos h2]
      exact hck
    · rw [if_neg h2]
      cases hi : it.instrumentationKey
      · rw [hi] at h2
        exact absurd rfl h2
      · simp
  have hn3 : (normalizeItem st.cfgKey now it).name.isNone = false := by
    rw [hn]
    cases hnm : it.name
    · rw [hnm] at hname
      simp at hname
    · simp
  have hts3 : (normalizeItem st.cfgKey now it).timestamp.isSome = true := by
    rw [hts]
    by_cases h3 : it.timestamp.isNone
    · simp [h3]
    · simp only [h3, if_false]
      cases hti : it.timestamp
      · rw [hti] at h3
        exact absurd rfl h3
      · simp
  have hex : ∃ x ∈ st.extensions, x.hasProc = true := by
    rw [hexts]
    exact ⟨mkController ctrlPid, by simp, rfl⟩
  rcases deliverFirst_of_exists st.extensions (normalizeItem st.cfgKey now it) hex
    with ⟨p, hf, hp, hd⟩
  refine ⟨p, normalizeItem st.cfgKey now it, ?_, ?_, ?_, ?_, ?_, hik3, hts3, ?_, hn⟩
  · simpa using hf
  · rw [track]
    simp only [hbd, Bool.false_eq_true, if_false, hn3, hts3, hik3, Option.isNone_iff_eq_none]
    simp only [Option.isSome_iff_ne_none] at hts3 hik3
    simp [hts3, hik3, hd]
  · intro hsf
    rw [hbt, if_pos hsf]
  · intro hsf
    rw [hbt, if_neg (by simp [hsf])]
  · intro hsf
    rw [hik, if_pos hsf, hkeyst]
  · intro htn
    rw [hts, htn]
    simp

/-- C6 witness: tracking an item carrying only the name `"X"` on the core
initialized from `cfgW` (key `"abc"`) delivers once, to `p1W`, with the
defaults applied. -/
theorem C6_witness :
    ∃ p it2, stW.extensions.find? (fun x => x.hasProc = true) = some p
      ∧ track stW 99 (some itW) = .ok [(p.pid, it2)]
      ∧ (strFalsy itW.baseType = true → it2.baseType = some eventDataType)
      ∧ (strFalsy itW.baseType = false → it2.baseType = itW.baseType)
      ∧ (strFalsy itW.instrumentationKey = true → it2.instrumentationKey = cfgW.instrumentationKey)
      ∧ it2.instrumentationKey.isSome = true
      ∧ it2.timestamp.isSome = true
      ∧ (itW.timestamp = none → it2.timestamp = some 99)
      ∧ it2.name = itW.name :=
  C6_trackDelivery 0 cfgW [p1W, p2W] stW trW lsW 99 itW rfl (by decide) (by decide)

/-! Helper lemmas for the chain invariant (C4). -/

theorem applyLinks_append_of_some (l1 l2 : List (Nat × Nat)) (x y : Nat)
    (h : applyLinks l2 x = some y) : applyLinks (l1 ++ l2) x = some y := by
  induction l1 with
  | nil => simpa using h
  | cons ab rest ih =>
    rw [List.cons_append, applyLinks, ih]

theorem applyLinks_none_of_not_src (l : List (Nat × Nat)) (x : Nat)
    (h : x ∉ l.map Prod.fst) : applyLinks l x = none := by
  induction l with
  | nil => rfl
  | cons ab rest ih =>
    have hx : ¬ ab.fst = x := by
      intro he
      exact h (by simp [he])
    have hrest : x ∉ rest.map Prod.fst := fun hm => h (by simp [hm])
    rw [applyLinks, ih hrest]
    simp [hx]

theorem applyLinks_eq_of_mem (l : List (Nat × Nat)) (x y : Nat)
    (hnd : (l.map Prod.fst).Nodup) (hm : (x, y) ∈ l) : applyLinks l x = some y := by
  induction l with
  | nil => simp at hm
  | cons ab rest ih =>
    rw [List.map_cons, List.nodup_cons] at hnd
    rcases List.mem_cons.mp hm with rfl | hm
    · have : x ∉ rest.map Prod.fst := by simpa using hnd.1
      rw [applyLinks, applyLinks_none_of_not_src rest x this]
      simp
    · rw [applyLinks, ih hnd.2 hm]

theorem adjacentLinks_fst_mem (l : List Plugin) (ab : Nat × Nat)
    (h : ab ∈ adjacentLinks l) : ab.fst ∈ l.map Plugin.pid := by
  induction l with
  | nil => simp [adjacentLinks] at h
  | cons a rest ih =>
    cases rest with
    | nil => simp [adjacentLinks] at h
    | cons b r =>
      rcases List.mem_cons.mp (by simpa [adjacentLinks] using h) with rfl | hm
      · simp
      · exact List.mem_cons_of_mem _ (ih hm)

theorem adjPairs_mem_of_decomp (x y : Plugin) :
    ∀ (f r : List Plugin), (x, y) ∈ adjPairs (f ++ x :: y :: r) := by
  intro f
  induction f with
  | nil => intro r; simp [adjPairs]
  | cons z f' ih =>
    intro r
    have hne : f' ++ x :: y :: r ≠ [] := by simp
    rcases hL : f' ++ x :: y :: r with _ | ⟨w, L⟩
    · exact absurd hL hne
    · have : adjPairs (z :: f' ++ x :: y :: r) = (z, w) :: adjPairs (f' ++ x :: y :: r) := by
        rw [List.cons_append, hL, adjPairs]
      rw [List.cons_append] at this ⊢
      rw [this]
      exact List.mem_cons_of_mem _ (ih r)

theorem adjPairs_fst_mem (x y : Plugin) :
    ∀ l : List Plugin, (x, y) ∈ adjPairs l → x ∈ l ∧ y ∈ l := by
  intro l
  induction l with
  | nil => intro h; simp [adjPairs] at h
  | cons a rest ih =>
    intro h
    cases rest with
    | nil => simp [adjPairs] at h
    | cons b r =>
      have h' : (x = a ∧ y = b) ∨ (x, y) ∈ adjPairs (b :: r) := by simpa [adjPairs] using h
      rcases h' with ⟨rfl, rfl⟩ | hm
      · exact ⟨List.mem_cons_self _ _, List.mem_cons_of_mem _ (List.mem_cons_self _ _)⟩
      · rcases ih hm with ⟨hx, hy⟩
        exact ⟨List.mem_cons_of_mem _ hx, List.mem_cons_of_mem _ hy⟩

theorem adjPairs_decomp (x y : Plugin) :
    ∀ l : List Plugin, (x, y) ∈ adjPairs l → ∃ f r, l = f ++ x :: y :: r := by
  intro l
  induction l with
  | nil => intro h; simp [adjPairs] at h
  | cons a rest ih =>
    intro h
    cases rest with
    | nil => simp [adjPairs] at h
    | cons b r =>
      have h' : (x = a ∧ y = b) ∨ (x, y) ∈ adjPairs (b :: r) := by simpa [adjPairs] using h
      rcases h' with ⟨rfl, rfl⟩ | hm
      · exact ⟨[], r, rfl⟩
      · rcases ih hm with ⟨f', r', he'⟩
        exact ⟨a :: f', r', by rw [List.cons_append, ← he']⟩

theorem chainReaches_mono (nxt : Nat → Option Nat) :
    ∀ (f f' cur t : Nat), f ≤ f' → chainReaches nxt f cur t = true →
      chainReaches nxt f' cur t = true := by
  intro f
  induction f with
  | zero => intro f' cur t _ h; simp [chainReaches] at h
  | succ f ih =>
    intro f' cur t hle h
    rcases f' with _ | f''
    · omega
    · rw [chainReaches] at h ⊢
      by_cases hct : cur = t
      · simp [hct]
      · simp only [hct, if_false] at h ⊢
        rcases hn : nxt cur with _ | n
        · rw [hn] at h
          simp at h
        · rw [hn] at h
          exact ih f'' n t (by omega) h

theorem chain_walk (nxt : Nat → Option Nat) (c : Plugin) :
    ∀ (l : List Plugin) (a : Plugin),
      (∀ x y : Plugin, (x, y) ∈ adjPairs (a :: l) → nxt x.pid = some y.pid) →
      (a :: l).getLast? = some c →
      chainReaches nxt (l.length + 1) a.pid c.pid = true := by
  intro l
  induction l with
  | nil =>
    intro a _ hlast
    have : a = c := by simpa using hlast
    subst this
    rw [chainReaches]
    simp
  | cons b l' ih =>
    intro a hpairs hlast
    have hab : nxt a.pid = some b.pid :=
      hpairs a b (by rw [adjPairs]; exact List.mem_cons_self _ _)
    have hpairs' : ∀ x y : Plugin, (x, y) ∈ adjPairs (b :: l') → nxt x.pid = some y.pid := by
      intro x y hm
      refine hpairs x y ?_
      rw [adjPairs]
      exact List.mem_cons_of_mem _ hm
    have hlast' : (b :: l').getLast? = some c := by
      rwa [List.getLast?_cons_cons] at hlast
    have hrec := ih b hpairs' hlast'
    rw [List.length_cons, chainReaches]
    by_cases hac : a.pid = c.pid
    · simp [hac]
    · simp only [hac, if_false, hab]
      exact hrec

theorem linkWalk_pairs (c : Plugin) :
    ∀ (l : List Plugin), (∀ p ∈ l, p.priority ≠ controllerPr) →
      ∀ a b : Plugin, (a, b) ∈ adjPairs (l ++ [c]) → a.hasProc = true →
        (a.pid, b.pid) ∈ linkWalk (l ++ [c]) := by
  intro l
  induction l with
  | nil =>
    intro _ a b hm _
    simp [adjPairs] at hm
  | cons x l' ih =>
    intro hno a b hm ha
    have hno' : ∀ p ∈ l', p.priority ≠ controllerPr :=
      fun p hp => hno p (List.mem_cons_of_mem _ hp)
    rcases hL : l' ++ [c] with _ | ⟨w, L⟩
    · simp at hL
    · have hadj : adjPairs ((x :: l') ++ [c]) = (x, w) :: adjPairs (l' ++ [c]) := by
        rw [List.cons_append, hL, adjPairs, ← hL]
      have hlw : linkWalk ((x :: l') ++ [c])
          = if !x.hasProc then linkWalk (l' ++ [c])
            else if x.priority = controllerPr then []
            else (x.pid, w.pid) :: linkWalk (l' ++ [c]) := by
        rw [List.cons_append, hL, linkWalk, ← hL]
      rw [hadj] at hm
      rcases List.mem_cons.mp hm with he | hm'
      · injection he with h1 h2
        subst h1
        subst h2
        have h200 : a.priority ≠ controllerPr := hno a (List.mem_cons_self _ _)
        rw [hlw, ha]
        simp only [Bool.not_true, Bool.false_eq_true, if_false, if_neg h200]
        exact List.mem_cons_self _ _
      · have hrec := ih hno' a b hm' ha
        rw [hlw]
        cases hx : x.hasProc
        · simp only [Bool.not_false, if_true]
          exact hrec
        · have h200x : x.priority ≠ controllerPr := hno x (List.mem_cons_self _ _)
          simp only [Bool.not_true, Bool.false_eq_true, if_false, if_neg h200x]
          exact List.mem_cons_of_mem _ hrec

theorem linkWalk_fst_sublist :
    ∀ l : List Plugin, ((linkWalk l).map Prod.fst).Sublist (l.dropLast.map Plugin.pid)
  | [] => by simp [linkWalk]
  | [x] => by simp [linkWalk]
  | a :: b :: rest => by
    have ih := linkWalk_fst_sublist (b :: rest)
    have hdl : (a :: b :: rest).dropLast = a :: (b :: rest).dropLast := rfl
    rw [hdl, linkWalk, List.map_cons]
    cases hp : a.hasProc
    · simp only [Bool.not_false, if_true]
      exact ih.cons _
    · by_cases h2 : a.priority = controllerPr
      · simp only [Bool.not_true, Bool.false_eq_true, if_false, if_pos h2, List.map_nil]
        exact List.nil_sublist _
      · simp only [Bool.not_true, Bool.false_eq_true, if_false, if_neg h2, List.map_cons]
        exact ih.cons₂ _

theorem sorted_split :
    ∀ S : List Plugin, List.Pairwise (fun x y => jsCompare x y ≤ 0) S →
      ∃ N P, S = N ++ P ∧ (∀ x ∈ N, x.hasProc = false) ∧ (∀ x ∈ P, x.hasProc = true) := by
  intro S
  induction S with
  | nil => intro _; exact ⟨[], [], rfl, by simp, by simp⟩
  | cons x S' ih =>
    intro h
    rcases List.pairwise_cons.mp h with ⟨hx, hS'⟩
    cases hxp : x.hasProc
    · rcases ih hS' with ⟨N, P, hsp, hN, hP⟩
      refine ⟨x :: N, P, by rw [List.cons_append, hsp], ?_, hP⟩
      intro z hz
      rcases List.mem_cons.mp hz with rfl | hz
      · exact hxp
      · exact hN z hz
    · refine ⟨[], x :: S', rfl, by simp, ?_⟩
      intro z hz
      rcases List.mem_cons.mp hz with rfl | hz
      · exact hxp
      · by_contra hzp
        have hz' : z.hasProc = false := Bool.not_eq_true _ ▸ hzp
        have hle := hx z hz
        unfold jsCompare at hle
        rw [hxp, hz'] at hle
        simp at hle

theorem no200_of_dupScan (S : List Plugin) (c : Plugin)
    (hc : c.priority = controllerPr)
    (hds : dupScan (S ++ [c]) [] = false) :
    ∀ p ∈ S, p.priority ≠ controllerPr := by
  intro p hp hpe
  have h1 : 0 < S.countP (fun x => x.priority == controllerPr) :=
    List.countP_pos_iff.mpr ⟨p, hp, by simp [hpe]⟩
  have hc1 : [c].countP (fun x => x.priority == controllerPr) = 1 := by
    simp [hc]
  have h2 : 2 ≤ (S ++ [c]).countP (fun x => x.priority == controllerPr) := by
    rw [List.countP_append, hc1]
    omega
  have htrue := dupScan_of_two controllerPr (by decide) (S ++ [c]) [] h2
  rw [htrue] at hds
  exact absurd hds (by simp)

theorem chanExplicit_links_src :
    ∀ (chs : List (Option (List Plugin))) (ab : Nat × Nat),
      ab ∈ (chanExplicit chs).links →
      ∃ q : List Plugin, some q ∈ chs ∧ ab.fst ∈ q.map Plugin.pid := by
  intro chs
  induction chs with
  | nil => intro ab h; simp [chanExplicit] at h
  | cons oq rest ih =>
    intro ab h
    match oq with
    | none =>
      rw [chanExplicit_none_cons] at h
      rcases ih ab h with ⟨q, hq, hm⟩
      exact ⟨q, List.mem_cons_of_mem _ hq, hm⟩
    | some q0 =>
      by_cases h0 : q0.isEmpty
      · rw [chanExplicit_empty_cons q0 rest h0] at h
        rcases ih ab h with ⟨q, hq, hm⟩
        exact ⟨q, List.mem_cons_of_mem _ hq, hm⟩
      · have h0' : q0.isEmpty = false := Bool.not_eq_true _ ▸ h0
        rcases hIR : initRun (jsSort qCompare q0) with ⟨tr, e⟩
        cases e with
        | some err =>
          rw [chanExplicit_err_cons q0 rest tr err h0' hIR] at h
          simp at h
        | none =>
          rw [chanExplicit_ok_cons q0 rest tr h0' hIR] at h
          rcases List.mem_append.mp (by simpa using h) with hm | hm
          · have hf := adjacentLinks_fst_mem _ ab hm
            have hperm := (jsSort_perm qCompare q0).map Plugin.pid
            exact ⟨q0, List.mem_cons_self _ _, hperm.mem_iff.mp hf⟩
          · rcases ih ab hm with ⟨q, hq, hmm⟩
            exact ⟨q, List.mem_cons_of_mem _ hq, hmm⟩

theorem chanImplicit_links_src (allExts : List Plugin) (ab : Nat × Nat)
    (h : ab ∈ (chanImplicit allExts).links) :
    ∃ e ∈ allExts, e.pid = ab.fst ∧ controllerPr < e.priority := by
  by_cases he : (allExts.filter (fun e => controllerPr < e.priority)).isEmpty
  · rw [chanImplicit, if_pos he] at h
    simp at h
  · have he' : (allExts.filter (fun e => controllerPr < e.priority)).isEmpty = false :=
      Bool.not_eq_true _ ▸ he
    rcases hIR : initRun (jsSort qCompare (allExts.filter (fun e => controllerPr < e.priority)))
      with ⟨tr, e⟩
    cases e with
    | some err =>
      rw [chanImplicit, if_neg (by simp [he']), hIR] at h
      simp at h
    | none =>
      rw [chanImplicit, if_neg (by simp [he']), hIR] at h
      have h1 := adjacentLinks_fst_mem _ ab h
      have h2 : ab.fst ∈ (jsSort qCompare
          (allExts.filter (fun e => controllerPr < e.priority))).map Plugin.pid :=
        ((List.dropLast_sublist _).map Plugin.pid).subset h1
      have h3 : ab.fst ∈ (allExts.filter (fun e => controllerPr < e.priority)).map Plugin.pid :=
        ((jsSort_perm qCompare _).map Plugin.pid).mem_iff.mp h2
      rcases List.mem_map.mp h3 with ⟨e, hef, hep⟩
      rcases List.mem_filter.mp hef with ⟨hee, hepr⟩
      exact ⟨e, hee, hep, by simpa using hepr⟩

theorem adjPairs_fst_mem_dropLast (x y : Plugin) :
    ∀ l : List Plugin, (x, y) ∈ adjPairs l → x ∈ l.dropLast := by
  intro l
  induction l with
  | nil => intro h; simp [adjPairs] at h
  | cons a rest ih =>
    intro h
    cases rest with
    | nil => simp [adjPairs] at h
    | cons b r =>
      have hdl : (a :: b :: r).dropLast = a :: (b :: r).dropLast := rfl
      rw [hdl]
      have h' : (x = a ∧ y = b) ∨ (x, y) ∈ adjPairs (b :: r) := by simpa [adjPairs] using h
      rcases h' with ⟨rfl, rfl⟩ | hm
      · exact List.mem_cons_self _ _
      · exact List.mem_cons_of_mem _ (ih hm)

/-- C4: for every configuration and extension list on which `initialize`
succeeds — with distinct plugin objects (distinct pids) and the controller
not among the declared channel members — every processing extension of the
assembled list except the channel controller has a non-null forwarding
successor, the successor chain followed from any processing extension
terminates at the channel controller, and the channel controller is the
terminal element of the assembled list, itself with no successor. -/
theorem C4_chain (ctrlPid : Nat) (cfg : Config) (supplied : List Plugin)
    (st : CoreState) (tr : List Nat) (ls : List (Nat × Nat))
    (hok : coreInit false ctrlPid (some cfg) supplied = ⟨.ok st, tr, ls⟩)
    (hnd : (((supplied ++ cfg.extensions.filterMap id).map Plugin.pid) ++ [ctrlPid]).Nodup)
    (hch : ∀ oq ∈ cfg.channels.getD [], ∀ m ∈ oq.getD [], m.pid ≠ ctrlPid) :
    (∀ p ∈ st.extensions, p.hasProc = true → p.pid ≠ ctrlPid →
      (applyLinks ls p.pid).isSome = true)
    ∧ (∀ p ∈ st.extensions, p.hasProc = true →
      chainReaches (applyLinks ls) st.extensions.length p.pid ctrlPid = true)
    ∧ st.extensions.getLast? = some (mkController ctrlPid)
    ∧ applyLinks ls ctrlPid = none := by
  obtain ⟨hexts, -, -, hdupf, hls⟩ := coreInit_ok_inv ctrlPid cfg supplied st tr ls hok
  set S := sortExtensions (supplied ++ cfg.extensions.filterMap id) with hS
  set ctrl := mkController ctrlPid with hctrl
  have hpermS : S.Perm (supplied ++ cfg.extensions.filterMap id) := jsSort_perm jsCompare _
  have hndE : ((S.map Plugin.pid) ++ [ctrlPid]).Nodup := by
    refine ((hpermS.map Plugin.pid).append_right [ctrlPid]).nodup_iff.mpr hnd
  have hdisj : ctrlPid ∉ S.map Plugin.pid := by
    rcases List.nodup_append.mp hndE with ⟨-, -, hdis⟩
    intro hmem
    exact hdis hmem (by simp)
  have hmapE : (S ++ [ctrl]).map Plugin.pid = (S.map Plugin.pid) ++ [ctrlPid] := by
    simp [hctrl, mkController]
  have hno200 : ∀ p ∈ S, p.priority ≠ controllerPr :=
    no200_of_dupScan S ctrl rfl hdupf
  have hpw : List.Pairwise (fun x y => jsCompare x y ≤ 0) S :=
    jsSort_pairwise jsCompare jsCompare_total jsCompare_trans _
  rcases sorted_split S hpw with ⟨N, P, hsp, hN, hP⟩
  have hcore : ∀ a b : Plugin, (a, b) ∈ adjPairs (P ++ [ctrl]) →
      applyLinks ls a.pid = some b.pid := by
    intro a b hm
    have haP : a ∈ P := by
      have h1 := adjPairs_fst_mem_dropLast a b (P ++ [ctrl]) hm
      rwa [List.dropLast_concat] at h1
    have haS : a ∈ S := by
      rw [hsp]
      exact List.mem_append_right N haP
    have hproc : a.hasProc = true := hP a haP
    rcases adjPairs_decomp a b _ hm with ⟨f, r, hfr⟩
    have hmE : (a, b) ∈ adjPairs (S ++ [ctrl]) := by
      rw [hsp, List.append_assoc, hfr, ← List.append_assoc]
      exact adjPairs_mem_of_decomp a b (N ++ f) r
    have hlw : (a.pid, b.pid) ∈ linkWalk (S ++ [ctrl]) :=
      linkWalk_pairs ctrl S hno200 a b hmE hproc
    have hndS : (S.map Plugin.pid).Nodup := (List.nodup_append.mp hndE).1
    have hndsrc : ((linkWalk (S ++ [ctrl])).map Prod.fst).Nodup := by
      have hsub := linkWalk_fst_sublist (S ++ [ctrl])
      rw [List.dropLast_concat] at hsub
      exact hndS.sublist hsub
    have happ : applyLinks (linkWalk (S ++ [ctrl])) a.pid = some b.pid :=
      applyLinks_eq_of_mem _ _ _ hndsrc hlw
    rw [hls]
    exact applyLinks_append_of_some _ _ _ _ happ
  have hmemP : ∀ p ∈ st.extensions, p.hasProc = true → p ∈ P ∨ p = ctrl := by
    intro p hpmem hproc
    rw [hexts] at hpmem
    rcases List.mem_append.mp hpmem with hpS | hpc
    · rw [hsp] at hpS
      rcases List.mem_append.mp hpS with hpN | hpP
      · exact absurd hproc (by simp [hN p hpN])
      · exact Or.inl hpP
    · exact Or.inr (by simpa using hpc)
  refine ⟨?_, ?_, ?_, ?_⟩
  · intro p hpmem hproc hpid
    rcases hmemP p hpmem hproc with hpP | rfl
    · rcases List.append_of_mem hpP with ⟨f, r, hfr⟩
      rcases hry : r ++ [ctrl] with _ | ⟨y, r2⟩
      · simp at hry
      · have hpr : (p, y) ∈ adjPairs (P ++ [ctrl]) := by
          rw [hfr, List.append_assoc, List.cons_append, hry]
          exact adjPairs_mem_of_decomp p y f r2
        rw [hcore p y hpr]
        rfl
    · exact absurd rfl hpid
  · intro p hpmem hproc
    rcases hmemP p hpmem hproc with hpP | rfl
    · rcases List.append_of_mem hpP with ⟨f, r, hfr⟩
      have hpairs : ∀ x y : Plugin, (x, y) ∈ adjPairs (p :: (r ++ [ctrl])) →
          applyLinks ls x.pid = some y.pid := by
        intro x y hm
        rcases adjPairs_decomp x y _ hm with ⟨f2, r2, hfr2⟩
        refine hcore x y ?_
        rw [hfr, List.append_assoc, List.cons_append]
        rw [show (p :: (r ++ [ctrl])) = f2 ++ x :: y :: r2 from hfr2, ← List.append_assoc]
        exact adjPairs_mem_of_decomp x y (f ++ f2) r2
      have hlast : (p :: (r ++ [ctrl])).getLast? = some ctrl := by
        rw [show p :: (r ++ [ctrl]) = (p :: r) ++ [ctrl] by simp]
        exact List.getLast?_concat _
      have hwalk := chain_walk (applyLinks ls) ctrl (r ++ [ctrl]) p hpairs hlast
      have hfuel : (r ++ [ctrl]).length + 1 ≤ st.extensions.length := by
        rw [hexts, hsp, hfr]
        simp
        omega
      exact chainReaches_mono (applyLinks ls) _ _ _ _ hfuel hwalk
    · have hlen : st.extensions.length = S.length + 1 := by
        rw [hexts]
        simp
      rw [hlen, chainReaches]
      simp [hctrl, mkController]
  · rw [hexts]
    exact List.getLast?_concat _
  · rw [hls]
    apply applyLinks_none_of_not_src
    rw [List.map_append]
    intro hmem
    rcases List.mem_append.mp hmem with hm | hm
    · rcases List.mem_map.mp hm with ⟨ab, hab, habf⟩
      rw [chanInit] at hab
      rcases hchn : cfg.channels with _ | chs
      · rw [hchn] at hab
        rcases chanImplicit_links_src _ ab hab with ⟨e, heE, hepid, hepr⟩
        rcases List.mem_append.mp heE with heS | hec
        · exact hdisj (List.mem_map.mpr ⟨e, heS, hepid.trans habf⟩)
        · have hec' : e = ctrl := by simpa using hec
          rw [hec', hctrl] at hepr
          simp [mkController] at hepr
      · rw [hchn] at hab
        rcases chanExplicit_links_src chs ab hab with ⟨q, hq, hmf⟩
        rcases List.mem_map.mp hmf with ⟨m, hmq, hmp⟩
        have hne := hch (some q) (by rw [hchn]; simpa using hq) m (by simpa using hmq)
        exact hne (hmp.trans habf)
    · have hsub := linkWalk_fst_sublist (S ++ [ctrl])
      rw [List.dropLast_concat] at hsub
      exact hdisj (hsub.subset hm)

/-- C4 witness: in the concrete assembly from `cfgW` with a processing
extension (pid 1) and a plain extension (pid 2), pid 1 is linked to the
controller (pid 0), the chain from every processing extension reaches the
controller, and the controller is last with no successor. -/
theorem C4_witness :
    (∀ p ∈ stW.extensions, p.hasProc = true → p.pid ≠ 0 →
      (applyLinks lsW p.pid).isSome = true)
    ∧ (∀ p ∈ stW.extensions, p.hasProc = true →
      chainReaches (applyLinks lsW) stW.extensions.length p.pid 0 = true)
    ∧ stW.extensions.getLast? = some (mkController 0)
    ∧ applyLinks lsW 0 = none :=
  C4_chain 0 cfgW [p1W, p2W] stW trW lsW rfl (by decide) (by decide)
